import Mathlib

/-!
Verification of the analytics core of src/v3.py (Stock_AnalysisBot).

The two functions with sequential/statistical logic are
calculate_technical_indicators and calculate_performance_metrics; both are
pure transformations of the closing-price column.  They are embedded here
over exact rationals, with an explicit model of the IEEE specials (NaN and
the signed infinities) that pandas/numpy propagate on this code path:
rounding is idealised away (the spec states every identity exactly), but
NaN/infinity creation and propagation are modelled faithfully.

The only square roots the source takes are np.sqrt(252) and the square root
inside pandas std(); every value of the two affected result fields
(volatility and the Sharpe number) therefore has the exact form s * sqrt q
with s in {-1,0,1} and q a nonnegative rational, and is represented
symbolically by the type RVal below.
-/

set_option linter.unusedVariables false

/-- Model of an IEEE-754 double as produced by pandas/numpy on this code
path: NaN, a signed infinity, or an exact (rational) finite value. -/
inductive F where
  | nan : F
  | pinf : F
  | ninf : F
  | fin : ℚ → F
  deriving DecidableEq, Repr

namespace F

/-- Test for the NaN value. -/
def isNan : F → Bool
  | nan => true
  | _ => false

/-- Test for a finite value. -/
def isFin : F → Bool
  | fin _ => true
  | _ => false

/-- IEEE addition. -/
def add : F → F → F
  | nan, _ => nan
  | _, nan => nan
  | pinf, ninf => nan
  | ninf, pinf => nan
  | pinf, _ => pinf
  | _, pinf => pinf
  | ninf, _ => ninf
  | _, ninf => ninf
  | fin a, fin b => fin (a + b)

/-- IEEE negation. -/
def neg : F → F
  | nan => nan
  | pinf => ninf
  | ninf => pinf
  | fin a => fin (-a)

/-- IEEE subtraction. -/
def sub (x y : F) : F := add x (neg y)

/-- IEEE multiplication. -/
def mul : F → F → F
  | nan, _ => nan
  | _, nan => nan
  | pinf, pinf => pinf
  | pinf, ninf => ninf
  | ninf, pinf => ninf
  | ninf, ninf => pinf
  | pinf, fin b => if b = 0 then nan else if 0 < b then pinf else ninf
  | fin a, pinf => if a = 0 then nan else if 0 < a then pinf else ninf
  | ninf, fin b => if b = 0 then nan else if 0 < b then ninf else pinf
  | fin a, ninf => if a = 0 then nan else if 0 < a then ninf else pinf
  | fin a, fin b => fin (a * b)

/-- IEEE division.  The rationals have a single zero; every zero produced by
the finite computations of this code path is IEEE +0, so a nonzero finite
value divided by zero is sign(numerator) * infinity, and 0/0 is NaN. -/
def div : F → F → F
  | nan, _ => nan
  | _, nan => nan
  | pinf, pinf => nan
  | pinf, ninf => nan
  | ninf, pinf => nan
  | ninf, ninf => nan
  | pinf, fin b => if 0 ≤ b then pinf else ninf
  | ninf, fin b => if 0 ≤ b then ninf else pinf
  | fin _, pinf => fin 0
  | fin _, ninf => fin 0
  | fin a, fin b =>
      if b = 0 then (if a = 0 then nan else if 0 < a then pinf else ninf)
      else fin (a / b)

/-- Binary maximum as used by cummax (the NaN case is handled by the caller,
which skips NaN entries). -/
def max : F → F → F
  | nan, _ => nan
  | _, nan => nan
  | pinf, _ => pinf
  | _, pinf => pinf
  | ninf, y => y
  | x, ninf => x
  | fin a, fin b => fin (Max.max a b)

/-- Binary minimum as used by min() over the non-NaN entries. -/
def min : F → F → F
  | nan, _ => nan
  | _, nan => nan
  | ninf, _ => ninf
  | _, ninf => ninf
  | pinf, y => y
  | x, pinf => x
  | fin a, fin b => fin (Min.min a b)

/-- pandas Series.clip(lower=0) applied pointwise. -/
def clipLower0 : F → F
  | nan => nan
  | pinf => pinf
  | ninf => fin 0
  | fin a => fin (Max.max a 0)

/-- pandas Series.clip(upper=0) applied pointwise. -/
def clipUpper0 : F → F
  | nan => nan
  | pinf => fin 0
  | ninf => ninf
  | fin a => fin (Min.min a 0)

/-- Sum of a list of float values. -/
def sum (xs : List F) : F := xs.foldr add (fin 0)

end F

/-- pandas Series.diff(): first entry NaN, then consecutive differences. -/
def diffS : List F → List F
  | [] => []
  | x :: rest =>
      F.nan :: List.zipWith (fun prev cur => F.sub cur prev) (x :: rest) rest

/-- pandas Series.pct_change(): first entry NaN, then cur/prev - 1. -/
def pctChange : List F → List F
  | [] => []
  | x :: rest =>
      F.nan ::
        List.zipWith (fun prev cur => F.sub (F.div cur prev) (F.fin 1)) (x :: rest) rest

/-- Mean of one rolling window; NaN if the window contains a NaN (with the
default min_periods = window, any NaN in the window makes the count short). -/
def windowMean (w : ℕ) (ws : List F) : F :=
  if ws.any F.isNan then F.nan else F.div (F.sum ws) (F.fin (w : ℚ))

/-- pandas Series.rolling(window=w).mean() with the default min_periods = w:
entry i is NaN while fewer than w observations have been seen, otherwise the
mean of the window ending at i. -/
def rollingMean (w : ℕ) (xs : List F) : List F :=
  (List.range xs.length).map (fun i =>
    if i + 1 < w then F.nan else windowMean w ((xs.drop (i + 1 - w)).take w))

/-- State-passing core of pandas Series.ewm(adjust=False).mean(): entries
before the first non-NaN input are NaN; the first non-NaN input seeds the
state; afterwards each input x updates the state e to a*x + (1-a)*e.
(Interior NaNs never occur on this code path: only leading ones, from diff.) -/
def ewmGo (a : ℚ) : Option F → List F → List F
  | none, [] => []
  | some _, [] => []
  | none, x :: rest =>
      if x.isNan then F.nan :: ewmGo a none rest
      else x :: ewmGo a (some x) rest
  | some e, x :: rest =>
      if x.isNan then e :: ewmGo a (some e) rest
      else
        F.add (F.mul (F.fin a) x) (F.mul (F.fin (1 - a)) e) ::
          ewmGo a (some (F.add (F.mul (F.fin a) x) (F.mul (F.fin (1 - a)) e))) rest

/-- pandas Series.ewm(..., adjust=False).mean() with smoothing factor a. -/
def ewmMean (a : ℚ) (xs : List F) : List F := ewmGo a none xs

/-- pandas Series.prod() with the default skipna=True: NaN entries are
skipped and the empty product is 1. -/
def prodSkip : List F → F
  | [] => F.fin 1
  | x :: rest => if x.isNan then prodSkip rest else F.mul x (prodSkip rest)

/-- pandas Series.cumprod() with skipna=True: NaN entries stay NaN in the
output and do not poison the running product. -/
def cumprodGo (acc : F) : List F → List F
  | [] => []
  | x :: rest =>
      if x.isNan then F.nan :: cumprodGo acc rest
      else F.mul acc x :: cumprodGo (F.mul acc x) rest

/-- pandas Series.cumprod() with skipna=True, started at the empty product. -/
def cumprodSkip (xs : List F) : List F := cumprodGo (F.fin 1) xs

/-- pandas Series.cummax() with skipna=True: state is the running maximum of
the non-NaN entries seen so far. -/
def cummaxGo : Option F → List F → List F
  | none, [] => []
  | some _, [] => []
  | st, x :: rest =>
      if x.isNan then F.nan :: cummaxGo st rest
      else
        match st with
        | none => x :: cummaxGo (some x) rest
        | some m => F.max m x :: cummaxGo (some (F.max m x)) rest

/-- pandas Series.cummax() with skipna=True. -/
def cummaxSkip (xs : List F) : List F := cummaxGo none xs

/-- pandas Series.min() with skipna=True: NaN when no entry is defined. -/
def minSkip (xs : List F) : F :=
  match xs.filter (fun x => !x.isNan) with
  | [] => F.nan
  | y :: rest => rest.foldl F.min y

/-- Arithmetic mean of a list of float values (sum over count). -/
def meanOf (d : List F) : F := F.div (F.sum d) (F.fin (d.length : ℚ))

/-- pandas Series.mean() with skipna=True: NaN when no entry is defined. -/
def meanSkip (xs : List F) : F :=
  match xs.filter (fun x => !x.isNan) with
  | [] => F.nan
  | y :: rest => meanOf (y :: rest)

/-- Sample variance (ddof = 1) of the defined entries: sum of squared
deviations from the mean over count - 1. -/
def varAux (d : List F) : F :=
  F.div (F.sum (d.map (fun x => F.mul (F.sub x (meanOf d)) (F.sub x (meanOf d)))))
    (F.fin ((d.length - 1 : ℕ) : ℚ))

/-- Sample variance (ddof = 1, skipna) of a series: the exact square of what
pandas Series.std() returns; NaN when fewer than two entries are defined. -/
def varSkip (xs : List F) : F :=
  match xs.filter (fun x => !x.isNan) with
  | [] => F.nan
  | [_] => F.nan
  | y :: z :: rest => varAux (y :: z :: rest)

/-- Symbolic exact value of the two square-root-bearing result fields: an
IEEE special, or s * sqrt q (s in {-1,0,1}, q a nonnegative rational). -/
inductive RVal where
  | nan : RVal
  | pinf : RVal
  | ninf : RVal
  | sq : Int → ℚ → RVal
  deriving DecidableEq, Repr

/-- The value s * sqrt q is zero exactly when s = 0 or q = 0. -/
def RVal.isZero : RVal → Bool
  | RVal.sq s q => s == 0 || q == 0
  | _ => false

/-- Test for the NaN value. -/
def RVal.isNan : RVal → Bool
  | RVal.nan => true
  | _ => false

/-- Model of std * np.sqrt(252) given the sample variance v:
sqrt v * sqrt 252 = sqrt (252 * v). -/
def stdTimesSqrt252 : F → RVal
  | F.nan => RVal.nan
  | F.pinf => RVal.pinf
  | F.ninf => RVal.nan
  | F.fin v => if v < 0 then RVal.nan else RVal.sq 1 (252 * v)

/-- Multiplication of a symbolic value by the scalar 100:
(s * sqrt q) * 100 = s * sqrt (10000 * q). -/
def RVal.mul100 : RVal → RVal
  | RVal.nan => RVal.nan
  | RVal.pinf => RVal.pinf
  | RVal.ninf => RVal.ninf
  | RVal.sq s q => RVal.sq s (10000 * q)

/-- Model of mean / std * np.sqrt(252) given the mean m and the sample
variance v of the returns: for v > 0 this is sign(m) * sqrt (252 * m^2 / v);
for v = 0 it is the IEEE quotient m / +0 (NaN when m = 0, otherwise a signed
infinity), scaled by the positive constant sqrt 252. -/
def sharpeOf : F → F → RVal
  | F.nan, _ => RVal.nan
  | _, F.nan => RVal.nan
  | _, F.ninf => RVal.nan
  | F.pinf, F.pinf => RVal.nan
  | F.ninf, F.pinf => RVal.nan
  | F.fin _, F.pinf => RVal.sq 0 0
  | F.pinf, F.fin v => if v < 0 then RVal.nan else RVal.pinf
  | F.ninf, F.fin v => if v < 0 then RVal.nan else RVal.ninf
  | F.fin m, F.fin v =>
      if v < 0 then RVal.nan
      else if v = 0 then
        (if m = 0 then RVal.nan else if 0 < m then RVal.pinf else RVal.ninf)
      else if m = 0 then RVal.sq 0 0
      else if 0 < m then RVal.sq 1 (252 * m ^ 2 / v)
      else RVal.sq (-1) (252 * m ^ 2 / v)

/-- The dictionary returned by calculate_technical_indicators. -/
structure IndicatorResult where
  last_close : F
  sma_20 : F
  sma_50 : F
  ema_20 : F
  ema_50 : F
  rsi : F
  macd : F
  macd_signal : F
  macd_histogram : F
  deriving DecidableEq, Repr

/-- Closing prices lifted into the float model (the column data['Close']). -/
def close_prices (closes : List ℚ) : List F := closes.map F.fin

/-- Source line: delta = close_prices.diff(). -/
def delta (closes : List ℚ) : List F := diffS (close_prices closes)

/-- Source line: up = delta.clip(lower=0). -/
def upS (closes : List ℚ) : List F := (delta closes).map F.clipLower0

/-- Source line: down = -1 * delta.clip(upper=0). -/
def downS (closes : List ℚ) : List F :=
  (delta closes).map (fun x => F.mul (F.fin (-1)) (F.clipUpper0 x))

/-- Source line: ema_up = up.ewm(com=13, adjust=False).mean(); a = 1/14. -/
def ema_up (closes : List ℚ) : List F := ewmMean (1/14) (upS closes)

/-- Source line: ema_down = down.ewm(com=13, adjust=False).mean(); a = 1/14. -/
def ema_down (closes : List ℚ) : List F := ewmMean (1/14) (downS closes)

/-- Source line: rs = ema_up / ema_down (elementwise). -/
def rsS (closes : List ℚ) : List F :=
  List.zipWith F.div (ema_up closes) (ema_down closes)

/-- Source line: short_EMA = close_prices.ewm(span=12, adjust=False).mean();
span 12 gives a = 2/13. -/
def short_EMA (closes : List ℚ) : List F := ewmMean (2/13) (close_prices closes)

/-- Source line: long_EMA = close_prices.ewm(span=26, adjust=False).mean();
span 26 gives a = 2/27. -/
def long_EMA (closes : List ℚ) : List F := ewmMean (2/27) (close_prices closes)

/-- Source line: MACD = short_EMA - long_EMA. -/
def MACD (closes : List ℚ) : List F :=
  List.zipWith F.sub (short_EMA closes) (long_EMA closes)

/-- Source line: signal = MACD.ewm(span=9, adjust=False).mean(); a = 1/5. -/
def signalS (closes : List ℚ) : List F := ewmMean (1/5) (MACD closes)

/-- Source line: macd_histogram = MACD - signal. -/
def macd_histogramS (closes : List ℚ) : List F :=
  List.zipWith F.sub (MACD closes) (signalS closes)

/-- iloc[-1] of a series; all series built by the engine have the length of
the input, so on the `some` branch of the engine the series is nonempty and
the default is never taken. -/
def lastF (xs : List F) : F := xs.getLastD F.nan

/-- calculate_technical_indicators of src/v3.py.  On an empty series the
first iloc[-1] raises IndexError, modelled as none; otherwise the dictionary
of the nine reported scalars. -/
def calculate_technical_indicators (closes : List ℚ) : Option IndicatorResult :=
  if closes.isEmpty then none
  else some
    { last_close := lastF (close_prices closes)
      sma_20 := lastF (rollingMean 20 (close_prices closes))
      sma_50 := lastF (rollingMean 50 (close_prices closes))
      ema_20 := lastF (ewmMean (2/21) (close_prices closes))
      ema_50 := lastF (ewmMean (2/51) (close_prices closes))
      rsi := F.sub (F.fin 100)
        (lastF ((rsS closes).map (fun x => F.div (F.fin 100) (F.add (F.fin 1) x))))
      macd := lastF (MACD closes)
      macd_signal := lastF (signalS closes)
      macd_histogram := lastF (macd_histogramS closes) }

/-- The dictionary returned by calculate_performance_metrics. -/
structure PerfResult where
  total_return_pct : F
  volatility_pct : RVal
  sharpe : RVal
  max_drawdown_pct : F
  deriving DecidableEq, Repr

/-- Source line: daily_returns = data['Close'].pct_change(). -/
def daily_returns (closes : List ℚ) : List F := pctChange (close_prices closes)

/-- Source line: cumulative_return = (1 + daily_returns).prod() - 1. -/
def cumulative_return (closes : List ℚ) : F :=
  F.sub (prodSkip ((daily_returns closes).map (F.add (F.fin 1)))) (F.fin 1)

/-- Source line: cumulative_returns = (1 + daily_returns).cumprod(). -/
def cumulative_returns (closes : List ℚ) : List F :=
  cumprodSkip ((daily_returns closes).map (F.add (F.fin 1)))

/-- Source line: peak = cumulative_returns.cummax(). -/
def peak (closes : List ℚ) : List F := cummaxSkip (cumulative_returns closes)

/-- Source line: drawdown = (cumulative_returns - peak) / peak. -/
def drawdown (closes : List ℚ) : List F :=
  List.zipWith (fun c p => F.div (F.sub c p) p) (cumulative_returns closes) (peak closes)

/-- Source line: max_drawdown = drawdown.min(). -/
def max_drawdown (closes : List ℚ) : F := minSkip (drawdown closes)

/-- calculate_performance_metrics of src/v3.py: total return, annualized
volatility, the Sharpe number and maximum drawdown, the first and last as
percentages in the float model, the middle two as symbolic exact values. -/
def calculate_performance_metrics (closes : List ℚ) : PerfResult :=
  { total_return_pct := F.mul (cumulative_return closes) (F.fin 100)
    volatility_pct := (stdTimesSqrt252 (varSkip (daily_returns closes))).mul100
    sharpe := sharpeOf (meanSkip (daily_returns closes)) (varSkip (daily_returns closes))
    max_drawdown_pct := F.mul (max_drawdown closes) (F.fin 100) }

/-- Spec-side daily returns: r[i] = close[i]/close[i-1] - 1, one entry per
consecutive pair (only the defined returns). -/
def returnsSpec (closes : List ℚ) : List ℚ :=
  List.zipWith (fun prev cur => cur / prev - 1) closes closes.tail

/-- Spec-side compounding: the product of (1 + r) over a returns list. -/
def compound1 (rs : List ℚ) : ℚ := (rs.map (fun r => 1 + r)).prod

/-- Spec-side EMA recursion with smoothing factor a, continuing from the
seed e: the values strictly after the seed. -/
def emaTail (a e : ℚ) : List ℚ → List ℚ
  | [] => []
  | x :: rest => (a * x + (1 - a) * e) :: emaTail a (a * x + (1 - a) * e) rest

/-- Spec-side full EMA series of a nonempty close list: the head seeds. -/
def emaSpec (a c : ℚ) (cs : List ℚ) : List ℚ := c :: emaTail a c cs

/-- Arithmetic mean of the last w entries of a rational list. -/
def lastMean (w : ℕ) (l : List ℚ) : ℚ := (l.drop (l.length - w)).sum / w

/-- Sample mean of a rational list. -/
def qmean (l : List ℚ) : ℚ := l.sum / l.length

/-- Spec-side sample variance (ddof = 1) as a float value: NaN when fewer
than two entries exist. -/
def qvar (l : List ℚ) : F :=
  if l.length < 2 then F.nan
  else F.fin ((l.map (fun x => (x - qmean l) * (x - qmean l))).sum / ((l.length - 1 : ℕ) : ℚ))

/-- Spec-side running products: the cumulative-return index C started at a. -/
def runProd (a : ℚ) : List ℚ → List ℚ
  | [] => []
  | x :: rest => (a * x) :: runProd (a * x) rest

/-- Spec-side running maxima: the running peak P started at m. -/
def runMax (m : ℚ) : List ℚ → List ℚ
  | [] => []
  | x :: rest => (Max.max m x) :: runMax (Max.max m x) rest

/-! ### Basic facts about the float model -/

namespace F

@[simp] theorem isNan_nan : (nan : F).isNan = true := rfl

@[simp] theorem isNan_pinf : (pinf : F).isNan = false := rfl

@[simp] theorem isNan_ninf : (ninf : F).isNan = false := rfl

@[simp] theorem isNan_fin (q : ℚ) : (fin q).isNan = false := rfl

@[simp] theorem add_fin (a b : ℚ) : add (fin a) (fin b) = fin (a + b) := rfl

@[simp] theorem add_nan_left (x : F) : add nan x = nan := by cases x <;> rfl

@[simp] theorem add_nan_right (x : F) : add x nan = nan := by cases x <;> rfl

@[simp] theorem add_fin_pinf (a : ℚ) : add (fin a) pinf = pinf := rfl

@[simp] theorem add_pinf_fin (a : ℚ) : add pinf (fin a) = pinf := rfl

@[simp] theorem neg_fin (a : ℚ) : neg (fin a) = fin (-a) := rfl

@[simp] theorem sub_fin (a b : ℚ) : sub (fin a) (fin b) = fin (a - b) := by
  simp [sub, sub_eq_add_neg]

@[simp] theorem sub_nan_left (x : F) : sub nan x = nan := by cases x <;> rfl

@[simp] theorem sub_nan_right (x : F) : sub x nan = nan := by cases x <;> rfl

@[simp] theorem mul_fin (a b : ℚ) : mul (fin a) (fin b) = fin (a * b) := rfl

@[simp] theorem mul_nan_left (x : F) : mul nan x = nan := by cases x <;> rfl

@[simp] theorem mul_nan_right (x : F) : mul x nan = nan := by cases x <;> rfl

@[simp] theorem div_nan_left (x : F) : div nan x = nan := by cases x <;> rfl

@[simp] theorem div_nan_right (x : F) : div x nan = nan := by cases x <;> rfl

@[simp] theorem div_fin_pinf (a : ℚ) : div (fin a) pinf = fin 0 := rfl

theorem div_fin_of_ne (a b : ℚ) (h : b ≠ 0) : div (fin a) (fin b) = fin (a / b) := by
  simp [div, h]

theorem div_fin_zero_pos (a : ℚ) (h : 0 < a) : div (fin a) (fin 0) = pinf := by
  simp [div, h, h.ne']

theorem div_zero_zero : div (fin 0) (fin 0) = nan := by simp [div]

@[simp] theorem sum_nil : sum [] = fin 0 := rfl

@[simp] theorem sum_cons (x : F) (l : List F) : sum (x :: l) = add x (sum l) := rfl

theorem sum_map_fin (l : List ℚ) : sum (l.map fin) = fin l.sum := by
  induction l with
  | nil => rfl
  | cons x r ih => simp [ih]

@[simp] theorem min_fin (a b : ℚ) : F.min (fin a) (fin b) = fin (Min.min a b) := rfl

@[simp] theorem max_fin (a b : ℚ) : F.max (fin a) (fin b) = fin (Max.max a b) := rfl

@[simp] theorem clipLower0_nan : clipLower0 nan = nan := rfl

@[simp] theorem clipLower0_fin (a : ℚ) : clipLower0 (fin a) = fin (Max.max a 0) := rfl

@[simp] theorem clipUpper0_nan : clipUpper0 nan = nan := rfl

@[simp] theorem clipUpper0_fin (a : ℚ) : clipUpper0 (fin a) = fin (Min.min a 0) := rfl

end F

/-! ### Shape lemmas for the series operations -/

theorem map_fin_any_isNan (l : List ℚ) : (l.map F.fin).any F.isNan = false := by
  induction l with
  | nil => rfl
  | cons x r ih => simp [ih]

theorem filter_map_fin (l : List ℚ) :
    (l.map F.fin).filter (fun x => !x.isNan) = l.map F.fin := by
  induction l with
  | nil => rfl
  | cons x r ih => simp [List.filter, ih]

theorem getLastD_congr {α : Type} (l : List α) (d1 d2 : α) (h : l ≠ []) :
    l.getLastD d1 = l.getLastD d2 := by
  cases l with
  | nil => exact absurd rfl h
  | cons a t => rw [List.getLastD_cons, List.getLastD_cons]

theorem getLastD_map {α β : Type} (f : α → β) (l : List α) (d : β) (x0 : α) (h : l ≠ []) :
    (l.map f).getLastD d = f (l.getLastD x0) := by
  induction l generalizing d x0 with
  | nil => exact absurd rfl h
  | cons a t ih =>
    cases t with
    | nil => simp [List.getLastD_cons]
    | cons b u =>
      rw [List.map_cons, List.getLastD_cons, List.getLastD_cons]
      exact ih (f a) a (by simp)

theorem getLastD_zipWith {α β γ : Type} (f : α → β → γ) :
    ∀ (xs : List α) (ys : List β) (x0 : α) (y0 : β), xs.length = ys.length →
      (List.zipWith f xs ys).getLastD (f x0 y0) = f (xs.getLastD x0) (ys.getLastD y0) := by
  intro xs
  induction xs with
  | nil =>
    intro ys x0 y0 h
    cases ys with
    | nil => rfl
    | cons b u => simp at h
  | cons a t ih =>
    intro ys x0 y0 h
    cases ys with
    | nil => simp at h
    | cons b u =>
      rw [List.zipWith_cons_cons, List.getLastD_cons, List.getLastD_cons, List.getLastD_cons]
      exact ih u a b (by simpa using h)

theorem getLastD_mem {α : Type} (l : List α) (d : α) (h : l ≠ []) : l.getLastD d ∈ l := by
  induction l generalizing d with
  | nil => exact absurd rfl h
  | cons a t ih =>
    cases t with
    | nil => simp [List.getLastD_cons]
    | cons b u =>
      rw [List.getLastD_cons]
      exact List.mem_cons_of_mem a (ih a (by simp))

theorem getLastD_range_map {α : Type} (f : ℕ → α) (n : ℕ) (hn : 0 < n) (d : α) :
    ((List.range n).map f).getLastD d = f (n - 1) := by
  obtain ⟨m, rfl⟩ : ∃ m, n = m + 1 := ⟨n - 1, by omega⟩
  rw [List.range_succ, List.map_append]
  simp

theorem ewmGo_length (a : ℚ) : ∀ (xs : List F) (st : Option F),
    (ewmGo a st xs).length = xs.length := by
  intro xs
  induction xs with
  | nil => intro st; cases st <;> rfl
  | cons x r ih =>
    intro st
    cases st <;> simp only [ewmGo] <;> split <;> simp [ih]

theorem ewmMean_length (a : ℚ) (xs : List F) : (ewmMean a xs).length = xs.length :=
  ewmGo_length a xs none

theorem rollingMean_length (w : ℕ) (xs : List F) :
    (rollingMean w xs).length = xs.length := by
  simp [rollingMean]

/-- The seeded ewm recursion on an all-finite tail is the spec-side EMA
recursion. -/
theorem ewmGo_fin (a : ℚ) : ∀ (l : List ℚ) (e : ℚ),
    ewmGo a (some (F.fin e)) (l.map F.fin) = (emaTail a e l).map F.fin := by
  intro l
  induction l with
  | nil => intro e; rfl
  | cons x r ih =>
    intro e
    simp only [List.map_cons, ewmGo, F.isNan_fin, Bool.false_eq_true, if_false,
      F.mul_fin, F.add_fin, emaTail]
    exact congrArg _ (ih (a * x + (1 - a) * e))

/-- The ewm of an all-finite series is the spec-side EMA, seeded at its head. -/
theorem ewmMean_cons_fin (a c : ℚ) (cs : List ℚ) :
    ewmMean a ((c :: cs).map F.fin) = (emaSpec a c cs).map F.fin := by
  simp only [ewmMean, List.map_cons, ewmGo, F.isNan_fin, Bool.false_eq_true, if_false, emaSpec]
  exact congrArg _ (ewmGo_fin a cs c)

/-- The ewm of a series with one leading NaN (like the RSI gain/loss series)
is NaN followed by the spec-side EMA of the finite tail. -/
theorem ewmMean_nan_cons_fin (a u : ℚ) (ur : List ℚ) :
    ewmMean a (F.nan :: (u :: ur).map F.fin) = F.nan :: (emaSpec a u ur).map F.fin := by
  simp only [ewmMean, ewmGo, F.isNan_nan, if_true]
  exact congrArg _ (ewmMean_cons_fin a u ur)

/-- The spec-side EMA preserves nonnegativity for smoothing factors in [0,1]. -/
theorem emaTail_nonneg (a : ℚ) (h0 : 0 ≤ a) (h1 : a ≤ 1) :
    ∀ (l : List ℚ) (e : ℚ), 0 ≤ e → (∀ x ∈ l, 0 ≤ x) →
      ∀ y ∈ emaTail a e l, 0 ≤ y := by
  intro l
  induction l with
  | nil => intro e _ _ y hy; simp [emaTail] at hy
  | cons x r ih =>
    intro e he hl y hy
    have hx : 0 ≤ x := hl x (by simp)
    have hstep : 0 ≤ a * x + (1 - a) * e :=
      add_nonneg (mul_nonneg h0 hx) (mul_nonneg (by linarith) he)
    rcases (by simpa [emaTail] using hy : y = a * x + (1 - a) * e ∨ y ∈ emaTail a (a * x + (1 - a) * e) r) with h | h
    · exact h ▸ hstep
    · exact ih (a * x + (1 - a) * e) hstep (fun z hz => hl z (by simp [hz])) y h

theorem emaTail_length (a : ℚ) : ∀ (l : List ℚ) (e : ℚ), (emaTail a e l).length = l.length := by
  intro l
  induction l with
  | nil => intro e; rfl
  | cons x r ih => intro e; simp [emaTail, ih]

theorem emaSpec_length (a c : ℚ) (cs : List ℚ) :
    (emaSpec a c cs).length = cs.length + 1 := by
  simp [emaSpec, emaTail_length]

theorem prodSkip_nan_cons (l : List F) : prodSkip (F.nan :: l) = prodSkip l := by
  simp [prodSkip]

theorem prodSkip_map_fin (l : List ℚ) : prodSkip (l.map F.fin) = F.fin l.prod := by
  induction l with
  | nil => rfl
  | cons x r ih => simp [prodSkip, ih]

theorem map_add_one_nan_cons (rs : List ℚ) :
    (F.nan :: rs.map F.fin).map (F.add (F.fin 1)) =
      F.nan :: (rs.map (fun r => 1 + r)).map F.fin := by
  simp [List.map_map, Function.comp_def]

theorem zip_sub_fin : ∀ (l : List ℚ) (p : ℚ),
    List.zipWith (fun prev cur => F.sub cur prev) ((p :: l).map F.fin) (l.map F.fin)
      = (List.zipWith (fun prev cur => cur - prev) (p :: l) l).map F.fin := by
  intro l
  induction l with
  | nil => intro p; rfl
  | cons x r ih =>
    intro p
    simp only [List.map_cons, List.zipWith_cons_cons, F.sub_fin]
    exact congrArg _ (ih x)

theorem delta_cons (c : ℚ) (cs : List ℚ) :
    delta (c :: cs) =
      F.nan :: (List.zipWith (fun prev cur => cur - prev) (c :: cs) cs).map F.fin := by
  simp only [delta, close_prices, List.map_cons, diffS]
  rw [← List.map_cons F.fin c cs]
  exact congrArg _ (zip_sub_fin cs c)

theorem zip_div_fin : ∀ (l : List ℚ) (p : ℚ), p ≠ 0 → (∀ x ∈ l, x ≠ 0) →
    List.zipWith (fun prev cur => F.sub (F.div cur prev) (F.fin 1)) ((p :: l).map F.fin) (l.map F.fin)
      = (List.zipWith (fun prev cur => cur / prev - 1) (p :: l) l).map F.fin := by
  intro l
  induction l with
  | nil => intro p _ _; rfl
  | cons x r ih =>
    intro p hp hl
    simp only [List.map_cons, List.zipWith_cons_cons, F.div_fin_of_ne x p hp, F.sub_fin]
    exact congrArg _ (ih x (hl x (by simp)) (fun z hz => hl z (by simp [hz])))

theorem daily_returns_cons (c : ℚ) (cs : List ℚ) (h : ∀ x ∈ c :: cs, x ≠ 0) :
    daily_returns (c :: cs) = F.nan :: (returnsSpec (c :: cs)).map F.fin := by
  simp only [daily_returns, close_prices, List.map_cons, pctChange, returnsSpec, List.tail_cons]
  rw [← List.map_cons F.fin c cs]
  exact congrArg _
    (zip_div_fin cs c (h c (by simp)) (fun x hx => h x (by simp [hx])))

theorem filter_nan_cons (l : List F) :
    (F.nan :: l).filter (fun x => !x.isNan) = l.filter (fun x => !x.isNan) := by
  simp [List.filter]

theorem meanOf_map_fin (d : List ℚ) (h : d ≠ []) :
    meanOf (d.map F.fin) = F.fin (qmean d) := by
  unfold meanOf qmean
  rw [F.sum_map_fin, List.length_map,
    F.div_fin_of_ne _ _ (by
      have : d.length ≠ 0 := fun h0 => h (List.length_eq_zero.mp h0)
      exact_mod_cast this)]

theorem meanSkip_shape (r : ℚ) (rr : List ℚ) :
    meanSkip (F.nan :: (r :: rr).map F.fin) = F.fin (qmean (r :: rr)) := by
  unfold meanSkip
  rw [filter_nan_cons, filter_map_fin, List.map_cons]
  show meanOf (F.fin r :: rr.map F.fin) = F.fin (qmean (r :: rr))
  rw [← List.map_cons F.fin r rr]
  exact meanOf_map_fin (r :: rr) (by simp)

theorem sum_sq_dev_fin (m : ℚ) : ∀ (d : List ℚ),
    F.sum ((d.map F.fin).map (fun x => F.mul (F.sub x (F.fin m)) (F.sub x (F.fin m))))
      = F.fin ((d.map (fun x => (x - m) * (x - m))).sum) := by
  intro d
  induction d with
  | nil => rfl
  | cons x r ih => simp only [List.map_cons, F.sub_fin, F.mul_fin, F.sum_cons, ih, F.add_fin,
      List.sum_cons]

theorem varAux_map_fin (d : List ℚ) (h : d ≠ []) (h2 : 2 ≤ d.length) :
    varAux (d.map F.fin)
      = F.fin ((d.map (fun x => (x - qmean d) * (x - qmean d))).sum / ((d.length - 1 : ℕ) : ℚ)) := by
  unfold varAux
  rw [meanOf_map_fin d h, sum_sq_dev_fin, List.length_map,
    F.div_fin_of_ne _ _ (by
      have : d.length - 1 ≠ 0 := by omega
      exact_mod_cast this)]

theorem varSkip_shape (rs : List ℚ) :
    varSkip (F.nan :: rs.map F.fin) = qvar rs := by
  match rs with
  | [] => rfl
  | [r] => rfl
  | r :: s :: t =>
    unfold varSkip
    rw [filter_nan_cons, filter_map_fin, List.map_cons, List.map_cons]
    show varAux (F.fin r :: F.fin s :: t.map F.fin) = qvar (r :: s :: t)
    rw [show F.fin r :: F.fin s :: t.map F.fin = (r :: s :: t).map F.fin from rfl]
    rw [varAux_map_fin (r :: s :: t) (by simp) (by simp)]
    unfold qvar
    rw [if_neg (by simp)]

theorem cumprodGo_fin : ∀ (l : List ℚ) (acc : ℚ),
    cumprodGo (F.fin acc) (l.map F.fin) = (runProd acc l).map F.fin := by
  intro l
  induction l with
  | nil => intro acc; rfl
  | cons x r ih =>
    intro acc
    simp only [List.map_cons, cumprodGo, F.isNan_fin, Bool.false_eq_true, if_false,
      F.mul_fin, runProd]
    exact congrArg _ (ih (acc * x))

theorem cumprodSkip_shape (qs : List ℚ) :
    cumprodSkip (F.nan :: qs.map F.fin) = F.nan :: (runProd 1 qs).map F.fin := by
  simp only [cumprodSkip, cumprodGo, F.isNan_nan, if_true]
  exact congrArg _ (cumprodGo_fin qs 1)

theorem cummaxGo_fin : ∀ (l : List ℚ) (m : ℚ),
    cummaxGo (some (F.fin m)) (l.map F.fin) = (runMax m l).map F.fin := by
  intro l
  induction l with
  | nil => intro m; rfl
  | cons x r ih =>
    intro m
    simp only [List.map_cons, cummaxGo, F.isNan_fin, Bool.false_eq_true, if_false,
      F.max_fin, runMax]
    exact congrArg _ (ih (Max.max m x))

theorem cummaxSkip_shape (C : ℚ) (Cr : List ℚ) :
    cummaxSkip (F.nan :: (C :: Cr).map F.fin) = F.nan :: F.fin C :: (runMax C Cr).map F.fin := by
  simp only [cummaxSkip, cummaxGo, F.isNan_nan, if_true, List.map_cons, F.isNan_fin,
    Bool.false_eq_true, if_false]
  exact congrArg _ (congrArg _ (cummaxGo_fin Cr C))

theorem zip_drawdown_fin : ∀ (Cs Ps : List ℚ), (∀ p ∈ Ps, p ≠ 0) →
    List.zipWith (fun c p => F.div (F.sub c p) p) (Cs.map F.fin) (Ps.map F.fin)
      = (List.zipWith (fun c p => (c - p) / p) Cs Ps).map F.fin := by
  intro Cs
  induction Cs with
  | nil => intro Ps _; simp
  | cons c cr ih =>
    intro Ps hm
    cases Ps with
    | nil => simp
    | cons p pr =>
      simp only [List.map_cons, List.zipWith_cons_cons, F.sub_fin,
        F.div_fin_of_ne _ _ (hm p (by simp))]
      exact congrArg _ (ih pr (fun z hz => hm z (by simp [hz])))

theorem foldl_min_fin : ∀ (dr : List ℚ) (d : ℚ),
    (dr.map F.fin).foldl F.min (F.fin d) = F.fin (dr.foldl Min.min d) := by
  intro dr
  induction dr with
  | nil => intro d; rfl
  | cons x r ih => intro d; simp only [List.map_cons, List.foldl_cons, F.min_fin, ih]

theorem minSkip_shape (d : ℚ) (dr : List ℚ) :
    minSkip (F.nan :: (d :: dr).map F.fin) = F.fin (dr.foldl Min.min d) := by
  unfold minSkip
  rw [filter_nan_cons, filter_map_fin, List.map_cons]
  show (dr.map F.fin).foldl F.min (F.fin d) = F.fin (dr.foldl Min.min d)
  exact foldl_min_fin dr d

theorem runProd_length : ∀ (l : List ℚ) (a : ℚ), (runProd a l).length = l.length := by
  intro l
  induction l with
  | nil => intro a; rfl
  | cons x r ih => intro a; simp [runProd, ih]

theorem runMax_length : ∀ (l : List ℚ) (m : ℚ), (runMax m l).length = l.length := by
  intro l
  induction l with
  | nil => intro m; rfl
  | cons x r ih => intro m; simp [runMax, ih]

theorem runProd_pos : ∀ (l : List ℚ) (a : ℚ), 0 < a → (∀ x ∈ l, 0 < x) →
    ∀ y ∈ runProd a l, 0 < y := by
  intro l
  induction l with
  | nil => intro a _ _ y hy; simp [runProd] at hy
  | cons x r ih =>
    intro a ha hl y hy
    have hax : 0 < a * x := mul_pos ha (hl x (by simp))
    rcases (by simpa [runProd] using hy : y = a * x ∨ y ∈ runProd (a * x) r) with h | h
    · exact h ▸ hax
    · exact ih (a * x) hax (fun z hz => hl z (by simp [hz])) y h

theorem runProd_chain : ∀ (l : List ℚ) (a : ℚ), 0 < a → (∀ x ∈ l, 1 ≤ x) →
    List.Chain (· ≤ ·) a (runProd a l) := by
  intro l
  induction l with
  | nil => intro a _ _; exact List.Chain.nil
  | cons x r ih =>
    intro a ha hl
    exact List.Chain.cons (le_mul_of_one_le_right ha.le (hl x (by simp)))
      (ih (a * x) (mul_pos ha (by linarith [hl x (by simp : x ∈ x :: r)]))
        (fun z hz => hl z (by simp [hz])))

theorem runMax_eq_self : ∀ (l : List ℚ) (m : ℚ), List.Chain (· ≤ ·) m l → runMax m l = l := by
  intro l
  induction l with
  | nil => intro m _; rfl
  | cons x r ih =>
    intro m hc
    rcases List.chain_cons.mp hc with ⟨hmx, hcr⟩
    simp only [runMax, max_eq_right hmx]
    exact congrArg _ (ih x hcr)

theorem zip_dd_self : ∀ (Cs : List ℚ),
    List.zipWith (fun c p => (c - p) / p) Cs Cs = Cs.map (fun _ => (0 : ℚ)) := by
  intro Cs
  induction Cs with
  | nil => rfl
  | cons c cr ih => simp [ih]

theorem dd_nonpos : ∀ (Cs : List ℚ) (m : ℚ), 0 < m → (∀ x ∈ Cs, 0 < x) →
    ∀ d ∈ List.zipWith (fun c p => (c - p) / p) Cs (runMax m Cs), d ≤ 0 := by
  intro Cs
  induction Cs with
  | nil => intro m _ _ d hd; simp at hd
  | cons x r ih =>
    intro m hm hl d hd
    have hmx : 0 < Max.max m x := lt_max_of_lt_left hm
    rcases (by simpa [runMax] using hd :
        d = (x - Max.max m x) / Max.max m x ∨
          d ∈ List.zipWith (fun c p => (c - p) / p) r (runMax (Max.max m x) r)) with h | h
    · exact h ▸ div_nonpos_of_nonpos_of_nonneg (by simp [le_max_right]) hmx.le
    · exact ih (Max.max m x) hmx (fun z hz => hl z (by simp [hz])) d h

theorem foldl_min_nonpos : ∀ (l : List ℚ) (d : ℚ), d ≤ 0 → (∀ x ∈ l, x ≤ 0) →
    l.foldl Min.min d ≤ 0 := by
  intro l
  induction l with
  | nil => intro d hd _; exact hd
  | cons x r ih =>
    intro d hd hl
    exact ih (Min.min d x) (min_le_of_left_le hd) (fun z hz => hl z (by simp [hz]))

theorem foldl_min_all_zero : ∀ (l : List ℚ), (∀ x ∈ l, x = 0) → l.foldl Min.min 0 = 0 := by
  intro l
  induction l with
  | nil => intro _; rfl
  | cons x r ih =>
    intro hl
    rw [List.foldl_cons, hl x (by simp), min_self]
    exact ih (fun z hz => hl z (by simp [hz]))

theorem returnsSpec_cons (c x : ℚ) (r : List ℚ) :
    returnsSpec (c :: x :: r) = (x / c - 1) :: returnsSpec (x :: r) := rfl

theorem returnsSpec_length (c : ℚ) (cs : List ℚ) :
    (returnsSpec (c :: cs)).length = cs.length := by
  simp [returnsSpec]

theorem returnsSpec_one_plus_pos : ∀ (cs : List ℚ) (c : ℚ), 0 < c → (∀ x ∈ cs, 0 < x) →
    ∀ q ∈ (returnsSpec (c :: cs)).map (fun r => 1 + r), 0 < q := by
  intro cs
  induction cs with
  | nil => intro c _ _ q hq; simp [returnsSpec] at hq
  | cons x r ih =>
    intro c hc hl q hq
    have hx : 0 < x := hl x (by simp)
    rcases (by simpa [returnsSpec_cons] using hq :
        q = 1 + (x / c - 1) ∨ q ∈ (returnsSpec (x :: r)).map (fun s => 1 + s)) with h | h
    · rw [h]; have := div_pos hx hc; linarith
    · exact ih x hx (fun z hz => hl z (by simp [hz])) q h

theorem returnsSpec_one_plus_ge_one : ∀ (cs : List ℚ) (c : ℚ), 0 < c → (∀ x ∈ cs, 0 < x) →
    List.Chain' (· ≤ ·) (c :: cs) →
    ∀ q ∈ (returnsSpec (c :: cs)).map (fun r => 1 + r), 1 ≤ q := by
  intro cs
  induction cs with
  | nil => intro c _ _ _ q hq; simp [returnsSpec] at hq
  | cons x r ih =>
    intro c hc hl hchain q hq
    have hx : 0 < x := hl x (by simp)
    rcases List.chain'_cons.mp hchain with ⟨hcx, hcr⟩
    rcases (by simpa [returnsSpec_cons] using hq :
        q = 1 + (x / c - 1) ∨ q ∈ (returnsSpec (x :: r)).map (fun s => 1 + s)) with h | h
    · rw [h]
      have : (1 : ℚ) ≤ x / c := (one_le_div hc).mpr hcx
      linarith
    · exact ih x hx (fun z hz => hl z (by simp [hz])) hcr q h

theorem rollingMean_lastF (w : ℕ) (hw : 0 < w) (closes : List ℚ) (h : closes ≠ []) :
    lastF (rollingMean w (close_prices closes)) =
      if closes.length < w then F.nan else F.fin (lastMean w closes) := by
  unfold lastF rollingMean close_prices
  rw [List.length_map]
  have hn : 0 < closes.length := List.length_pos.mpr h
  rw [getLastD_range_map _ _ hn]
  have hidx : closes.length - 1 + 1 = closes.length := by omega
  rw [hidx]
  by_cases hlt : closes.length < w
  · rw [if_pos hlt, if_pos hlt]
  · rw [if_neg hlt, if_neg hlt]
    unfold windowMean
    rw [← List.map_drop, ← List.map_take, map_fin_any_isNan]
    rw [if_neg (by simp)]
    rw [F.sum_map_fin]
    rw [F.div_fin_of_ne _ _ (by exact_mod_cast hw.ne')]
    unfold lastMean
    rw [List.take_of_length_le (by rw [List.length_drop]; omega)]

/-- C1: for a price series shorter than the window the reported SMA(20) (and
SMA(50)) is undefined (NaN); once the series has at least window-many bars it
equals exactly the arithmetic mean of the last window-many closes. -/
theorem C1_sma_window (closes : List ℚ) (r : IndicatorResult)
    (h : calculate_technical_indicators closes = some r) :
    ((closes.length < 20 → r.sma_20 = F.nan) ∧
      (20 ≤ closes.length → r.sma_20 = F.fin (lastMean 20 closes))) ∧
    ((closes.length < 50 → r.sma_50 = F.nan) ∧
      (50 ≤ closes.length → r.sma_50 = F.fin (lastMean 50 closes))) := by
  have hne : closes ≠ [] := by
    intro h0
    rw [h0] at h
    simp [calculate_technical_indicators] at h
  unfold calculate_technical_indicators at h
  rw [if_neg (by simpa using hne)] at h
  have hr := Option.some.inj h
  subst hr
  refine ⟨⟨fun hl => ?_, fun hl => ?_⟩, fun hl => ?_, fun hl => ?_⟩
  · show lastF (rollingMean 20 (close_prices closes)) = F.nan
    rw [rollingMean_lastF 20 (by norm_num) closes hne, if_pos hl]
  · show lastF (rollingMean 20 (close_prices closes)) = F.fin (lastMean 20 closes)
    rw [rollingMean_lastF 20 (by norm_num) closes hne, if_neg (by omega)]
  · show lastF (rollingMean 50 (close_prices closes)) = F.nan
    rw [rollingMean_lastF 50 (by norm_num) closes hne, if_pos hl]
  · show lastF (rollingMean 50 (close_prices closes)) = F.fin (lastMean 50 closes)
    rw [rollingMean_lastF 50 (by norm_num) closes hne, if_neg (by omega)]

/-- Witness for C1 at a concrete 20-bar series of constant price 1: the
reported SMA(20) is defined and equals the mean of the last 20 closes. -/
theorem C1_sma_window_witness :
    (calculate_technical_indicators (List.replicate 20 (1 : ℚ))).map IndicatorResult.sma_20
      = some (F.fin (lastMean 20 (List.replicate 20 (1 : ℚ)))) := by
  cases hE : calculate_technical_indicators (List.replicate 20 (1 : ℚ)) with
  | none => exact absurd hE (by simp [calculate_technical_indicators])
  | some r =>
    have h20 := ((C1_sma_window (List.replicate 20 (1 : ℚ)) r hE).1).2 (by simp)
    simp [h20]

/-- C3: evaluation of the code at zero-average-loss inputs.  On the strictly
increasing series [100, 101, 102] the average loss is exactly zero and the
engine reports RSI = 100 (a fabricated number produced by the intermediate
infinity of avg_gain / 0), and on the constant series [100, 100] it reports
RSI = NaN (a silently propagated NaN): in neither case is the claimed
explicit undefined sentinel produced. -/
theorem C3_rsi_zero_loss_eval :
    (calculate_technical_indicators [100, 101, 102]).map IndicatorResult.rsi
        = some (F.fin 100) ∧
    (calculate_technical_indicators [100, 100]).map IndicatorResult.rsi = some F.nan := by
  constructor <;>
    norm_num [calculate_technical_indicators, rsS, ema_up, ema_down, upS, downS, delta, diffS,
      close_prices, ewmMean, ewmGo, lastF, F.isNan, F.sub, F.add, F.neg, F.mul, F.div,
      F.clipLower0, F.clipUpper0, max_def, min_def]

/-- C2 counterexample: on the single-bar series [100] the total return is the
defined value 0 percent (not undefined), and EMA(20) and the MACD histogram
are likewise defined, refuting the claim that all performance metrics are
undefined and all indicators undefined except the last close. -/
theorem C2_single_bar_counterexample :
    (calculate_performance_metrics [100]).total_return_pct = F.fin 0 ∧
    (calculate_technical_indicators [100]).map IndicatorResult.ema_20 = some (F.fin 100) ∧
    (calculate_technical_indicators [100]).map IndicatorResult.macd_histogram
        = some (F.fin 0) := by
  refine ⟨?_, ?_, ?_⟩
  · norm_num [calculate_performance_metrics, cumulative_return, daily_returns, pctChange,
      close_prices, prodSkip, F.isNan, F.sub, F.add, F.neg, F.mul]
  · norm_num [calculate_technical_indicators, close_prices, ewmMean, ewmGo, lastF, F.isNan]
  · norm_num [calculate_technical_indicators, macd_histogramS, MACD, short_EMA, long_EMA,
      signalS, close_prices, ewmMean, ewmGo, lastF, F.isNan, F.sub, F.add, F.neg, F.mul]

/-- C2 amended: a single-bar series yields volatility, Sharpe and max
drawdown undefined but total return defined and equal to 0 percent; the
indicators RSI, SMA(20), SMA(50) are undefined while last close, EMA(20),
EMA(50) (each equal to the close) and the MACD line, signal and histogram
(each equal to 0) are defined; the performance engine also returns a result
(of the same shape) for empty input, while the indicator engine fails
(IndexError, modelled as none) on empty input. -/
theorem C2_single_bar_amended (c : ℚ) :
    calculate_performance_metrics [c] =
      { total_return_pct := F.fin 0, volatility_pct := RVal.nan,
        sharpe := RVal.nan, max_drawdown_pct := F.nan } ∧
    calculate_technical_indicators [c] = some
      { last_close := F.fin c, sma_20 := F.nan, sma_50 := F.nan,
        ema_20 := F.fin c, ema_50 := F.fin c, rsi := F.nan,
        macd := F.fin 0, macd_signal := F.fin 0, macd_histogram := F.fin 0 } ∧
    calculate_technical_indicators [] = none ∧
    calculate_performance_metrics [] =
      { total_return_pct := F.fin 0, volatility_pct := RVal.nan,
        sharpe := RVal.nan, max_drawdown_pct := F.nan } := by
  refine ⟨?_, ?_, rfl, ?_⟩
  · norm_num [calculate_performance_metrics, cumulative_return, cumulative_returns,
      daily_returns, peak, drawdown, max_drawdown, pctChange, close_prices, prodSkip,
      cumprodSkip, cumprodGo, cummaxSkip, cummaxGo, minSkip, meanSkip, meanOf, varSkip,
      varAux, stdTimesSqrt252, sharpeOf, RVal.mul100, F.isNan, F.sub, F.add, F.neg, F.mul,
      F.div, F.sum, List.filter, PerfResult.mk.injEq]
  · norm_num [calculate_technical_indicators, close_prices, rollingMean, windowMean,
      ewmMean, ewmGo, rsS, ema_up, ema_down, upS, downS, delta, diffS, MACD, short_EMA,
      long_EMA, signalS, macd_histogramS, lastF, F.isNan, F.sub, F.add, F.neg, F.mul, F.div,
      F.clipLower0, F.clipUpper0, F.sum, max_def, min_def, List.range_succ,
      IndicatorResult.mk.injEq]
  · norm_num [calculate_performance_metrics, cumulative_return, cumulative_returns,
      daily_returns, peak, drawdown, max_drawdown, pctChange, close_prices, prodSkip,
      cumprodSkip, cumprodGo, cummaxSkip, cummaxGo, minSkip, meanSkip, meanOf, varSkip,
      varAux, stdTimesSqrt252, sharpeOf, RVal.mul100, F.isNan, F.sub, F.add, F.neg, F.mul,
      F.div, F.sum, List.filter, PerfResult.mk.injEq]

theorem zipWith_sub_map_fin : ∀ (A B : List ℚ),
    List.zipWith F.sub (A.map F.fin) (B.map F.fin)
      = (List.zipWith (fun x y => x - y) A B).map F.fin := by
  intro A
  induction A with
  | nil => intro B; simp
  | cons a ar ih =>
    intro B
    cases B with
    | nil => simp
    | cons b br =>
      simp only [List.map_cons, List.zipWith_cons_cons, F.sub_fin]
      exact congrArg _ (ih br)

theorem MACD_map_fin (c : ℚ) (cs : List ℚ) :
    MACD (c :: cs) =
      (List.zipWith (fun x y => x - y) (emaSpec (2/13) c cs) (emaSpec (2/27) c cs)).map F.fin := by
  unfold MACD short_EMA long_EMA close_prices
  rw [ewmMean_cons_fin, ewmMean_cons_fin, zipWith_sub_map_fin]

theorem signalS_map_fin (c : ℚ) (cs : List ℚ) :
    signalS (c :: cs) =
      (emaSpec (1/5) (c - c)
        (List.zipWith (fun x y => x - y) (emaTail (2/13) c cs) (emaTail (2/27) c cs))).map F.fin := by
  unfold signalS
  rw [MACD_map_fin]
  exact ewmMean_cons_fin (1/5) (c - c)
    (List.zipWith (fun x y => x - y) (emaTail (2/13) c cs) (emaTail (2/27) c cs))

theorem macd_histogramS_map_fin (c : ℚ) (cs : List ℚ) :
    macd_histogramS (c :: cs) =
      (List.zipWith (fun x y => x - y)
        (List.zipWith (fun x y => x - y) (emaSpec (2/13) c cs) (emaSpec (2/27) c cs))
        (emaSpec (1/5) (c - c)
          (List.zipWith (fun x y => x - y) (emaTail (2/13) c cs) (emaTail (2/27) c cs)))).map
        F.fin := by
  unfold macd_histogramS
  rw [MACD_map_fin, signalS_map_fin, zipWith_sub_map_fin]

theorem getElem?_map_fin (Q : List ℚ) (i : ℕ) (h : i < Q.length) :
    ∃ q, (Q.map F.fin)[i]? = some (F.fin q) :=
  ⟨Q[i], by rw [List.getElem?_map, List.getElem?_eq_getElem h]; rfl⟩

/-- C5: at every bar, the MACD histogram entry is exactly the MACD-line entry
minus the signal-line entry, and the histogram series covers every bar of the
input. -/
theorem C5_histogram_eq_macd_sub_signal (closes : List ℚ) :
    (macd_histogramS closes).length = closes.length ∧
    ∀ i, i < closes.length →
      ∃ m s, (MACD closes)[i]? = some m ∧ (signalS closes)[i]? = some s ∧
        (macd_histogramS closes)[i]? = some (F.sub m s) := by
  have hM : (MACD closes).length = closes.length := by
    simp [MACD, short_EMA, long_EMA, ewmMean_length, close_prices]
  have hS : (signalS closes).length = closes.length := by
    simp [signalS, ewmMean_length, hM]
  have hH : (macd_histogramS closes).length = closes.length := by
    simp [macd_histogramS, hM, hS]
  refine ⟨hH, fun i hi => ?_⟩
  refine ⟨(MACD closes).get ⟨i, by omega⟩, (signalS closes).get ⟨i, by omega⟩, ?_, ?_, ?_⟩
  · exact List.getElem?_eq_getElem (by omega)
  · exact List.getElem?_eq_getElem (by omega)
  · rw [List.getElem?_eq_getElem (by omega : i < (macd_histogramS closes).length)]
    congr 1
    simp [macd_histogramS, List.getElem_zipWith, List.get_eq_getElem]

/-- Witness for C5 at the two-bar series [1, 2], bar 0. -/
theorem C5_histogram_eq_macd_sub_signal_witness :
    ∃ m s, (MACD [1, 2])[0]? = some m ∧ (signalS [1, 2])[0]? = some s ∧
      (macd_histogramS [1, 2])[0]? = some (F.sub m s) :=
  (C5_histogram_eq_macd_sub_signal [1, 2]).2 0 (by norm_num)

/-- C10: for a nonempty close series every entry of the MACD line, the signal
line and the histogram is a defined (finite) value; at the first bar all
three are exactly 0 (each EMA is seeded with the first element of the series
it smooths); and even for a single-bar series the reported MACD scalars are
all the defined value 0. -/
theorem C10_macd_always_defined (c : ℚ) (cs : List ℚ) :
    (∀ i, i < (c :: cs).length →
      (∃ qm, (MACD (c :: cs))[i]? = some (F.fin qm)) ∧
      (∃ qs, (signalS (c :: cs))[i]? = some (F.fin qs)) ∧
      (∃ qh, (macd_histogramS (c :: cs))[i]? = some (F.fin qh))) ∧
    ((MACD (c :: cs))[0]? = some (F.fin 0) ∧
      (signalS (c :: cs))[0]? = some (F.fin 0) ∧
      (macd_histogramS (c :: cs))[0]? = some (F.fin 0)) ∧
    (∀ r, calculate_technical_indicators [c] = some r →
      r.macd = F.fin 0 ∧ r.macd_signal = F.fin 0 ∧ r.macd_histogram = F.fin 0) := by
  have hlenM : (List.zipWith (fun x y => x - y) (emaSpec (2/13) c cs)
      (emaSpec (2/27) c cs)).length = cs.length + 1 := by
    simp [List.length_zipWith, emaSpec_length]
  have hlenS : (emaSpec (1/5) (c - c)
      (List.zipWith (fun x y => x - y) (emaTail (2/13) c cs) (emaTail (2/27) c cs))).length
        = cs.length + 1 := by
    simp [emaSpec_length, List.length_zipWith, emaTail_length]
  refine ⟨fun i hi => ?_, ⟨?_, ?_, ?_⟩, fun r hr => ?_⟩
  · have hi2 : i < cs.length + 1 := by simpa using hi
    refine ⟨?_, ?_, ?_⟩
    · rw [MACD_map_fin]
      exact getElem?_map_fin _ i (by omega)
    · rw [signalS_map_fin]
      exact getElem?_map_fin _ i (by omega)
    · rw [macd_histogramS_map_fin]
      exact getElem?_map_fin _ i (by
        simp only [List.length_zipWith, hlenM, hlenS]
        omega)
  · rw [MACD_map_fin]
    have : emaSpec (2/13) c cs = c :: emaTail (2/13) c cs := rfl
    simp [emaSpec]
  · rw [signalS_map_fin]
    simp [emaSpec]
  · rw [macd_histogramS_map_fin]
    simp [emaSpec]
  · have hne : ¬([c] : List ℚ).isEmpty = true := by simp
    unfold calculate_technical_indicators at hr
    rw [if_neg hne] at hr
    have hr2 := Option.some.inj hr
    subst hr2
    refine ⟨?_, ?_, ?_⟩
    · show F.sub (F.fin c) (F.fin c) = F.fin 0
      rw [F.sub_fin, sub_self]
    · show F.sub (F.fin c) (F.fin c) = F.fin 0
      rw [F.sub_fin, sub_self]
    · show F.sub (F.sub (F.fin c) (F.fin c)) (F.sub (F.fin c) (F.fin c)) = F.fin 0
      rw [F.sub_fin, sub_self, F.sub_fin, sub_self]

/-- Witness for C10 at the single-bar series [5]: bar 0 of the MACD line is
the defined value 0, and the reported MACD scalars of [5] are all 0. -/
theorem C10_macd_always_defined_witness :
    (MACD [(5 : ℚ)])[0]? = some (F.fin 0) ∧
    (∃ r, calculate_technical_indicators [(5 : ℚ)] = some r ∧ r.macd = F.fin 0) := by
  refine ⟨(C10_macd_always_defined 5 []).2.1.1, ?_⟩
  cases hE : calculate_technical_indicators [(5 : ℚ)] with
  | none => exact absurd hE (by simp [calculate_technical_indicators])
  | some r =>
    exact ⟨r, rfl, ((C10_macd_always_defined 5 []).2.2 r hE).1⟩

/-- The spec-side EMA recursion, read off entry by entry: each entry is
a * (current close) + (1 - a) * (previous EMA entry). -/
theorem emaSpec_rec : ∀ (cs : List ℚ) (a c : ℚ) (i : ℕ) (x e : ℚ),
    (c :: cs)[i + 1]? = some x → (emaSpec a c cs)[i]? = some e →
    (emaSpec a c cs)[i + 1]? = some (a * x + (1 - a) * e) := by
  intro cs
  induction cs with
  | nil =>
    intro a c i x e hx he
    simp at hx
  | cons y yr ih =>
    intro a c i x e hx he
    cases i with
    | zero =>
      simp only [List.getElem?_cons_succ, List.getElem?_cons_zero] at hx
      have hx2 := Option.some.inj hx
      have he2 : c = e := by
        have : (emaSpec a c (y :: yr))[0]? = some c := rfl
        exact Option.some.inj (this.symm.trans he)
      subst hx2
      subst he2
      simp [emaSpec, emaTail]
    | succ j =>
      have hshift : emaSpec a c (y :: yr) = c :: emaSpec a (a * y + (1 - a) * c) yr := rfl
      rw [hshift] at he ⊢
      simp only [List.getElem?_cons_succ] at he hx ⊢
      exact ih a (a * y + (1 - a) * c) j x e (by simpa using hx) he

/-- C6: the engine EMA series of a nonempty close series is exactly the
recursion seeded with the first close (ema[0] = close[0],
ema[i+1] = a * close[i+1] + (1 - a) * ema[i], a = 2/(span+1)); the reported
EMA(20) and EMA(50) scalars are the latest values of that recursion. -/
theorem C6_ema_seeded_recursion (c : ℚ) (cs : List ℚ) (r : IndicatorResult)
    (h : calculate_technical_indicators (c :: cs) = some r) :
    (ewmMean (2/21) (close_prices (c :: cs)) = (emaSpec (2/21) c cs).map F.fin ∧
      ewmMean (2/51) (close_prices (c :: cs)) = (emaSpec (2/51) c cs).map F.fin) ∧
    ((emaSpec (2/21) c cs).head? = some c ∧ (emaSpec (2/51) c cs).head? = some c) ∧
    (∀ a : ℚ, ∀ i : ℕ, ∀ x e : ℚ, (c :: cs)[i + 1]? = some x →
      (emaSpec a c cs)[i]? = some e →
      (emaSpec a c cs)[i + 1]? = some (a * x + (1 - a) * e)) ∧
    (r.ema_20 = F.fin ((emaSpec (2/21) c cs).getLastD 0) ∧
      r.ema_50 = F.fin ((emaSpec (2/51) c cs).getLastD 0)) := by
  have hb20 : ewmMean (2/21) (close_prices (c :: cs)) = (emaSpec (2/21) c cs).map F.fin := by
    unfold close_prices
    exact ewmMean_cons_fin (2/21) c cs
  have hb50 : ewmMean (2/51) (close_prices (c :: cs)) = (emaSpec (2/51) c cs).map F.fin := by
    unfold close_prices
    exact ewmMean_cons_fin (2/51) c cs
  refine ⟨⟨hb20, hb50⟩, ⟨rfl, rfl⟩, fun a i x e hx he => emaSpec_rec cs a c i x e hx he, ?_⟩
  have hne : ¬(c :: cs : List ℚ).isEmpty = true := by simp
  unfold calculate_technical_indicators at h
  rw [if_neg hne] at h
  have h2 := Option.some.inj h
  subst h2
  constructor
  · show lastF (ewmMean (2/21) (close_prices (c :: cs))) = F.fin ((emaSpec (2/21) c cs).getLastD 0)
    rw [hb20]
    exact getLastD_map F.fin _ F.nan 0 (by simp [emaSpec])
  · show lastF (ewmMean (2/51) (close_prices (c :: cs))) = F.fin ((emaSpec (2/51) c cs).getLastD 0)
    rw [hb50]
    exact getLastD_map F.fin _ F.nan 0 (by simp [emaSpec])

/-- Witness for C6 at the two-bar series [1, 2]: the reported EMA(20) is the
last value of the seeded recursion. -/
theorem C6_ema_seeded_recursion_witness :
    ∃ r, calculate_technical_indicators [1, 2] = some r ∧
      r.ema_20 = F.fin ((emaSpec (2/21) 1 [2]).getLastD 0) := by
  cases hE : calculate_technical_indicators [1, 2] with
  | none => exact absurd hE (by simp [calculate_technical_indicators])
  | some r =>
    exact ⟨r, rfl, (C6_ema_seeded_recursion 1 [2] r hE).2.2.2.1⟩

/-- C8: the reported total return is exactly the product of (1 + r) over the
defined daily returns, minus one, as a percentage; and that compounding
splits multiplicatively at any point of the returns series. -/
theorem C8_total_return_compounding (closes : List ℚ) (hpos : ∀ x ∈ closes, 0 < x) :
    (calculate_performance_metrics closes).total_return_pct
        = F.fin ((compound1 (returnsSpec closes) - 1) * 100) ∧
    ∀ k : ℕ, compound1 (returnsSpec closes)
        = compound1 ((returnsSpec closes).take k) * compound1 ((returnsSpec closes).drop k) := by
  constructor
  · match closes with
    | [] =>
      show F.mul (cumulative_return []) (F.fin 100) = _
      norm_num [cumulative_return, daily_returns, pctChange, close_prices, prodSkip,
        returnsSpec, compound1, F.sub, F.add, F.neg, F.mul]
    | c :: cs =>
      show F.mul (cumulative_return (c :: cs)) (F.fin 100) = _
      unfold cumulative_return
      rw [daily_returns_cons c cs (fun x hx => (hpos x hx).ne'), map_add_one_nan_cons,
        prodSkip_nan_cons, prodSkip_map_fin, F.sub_fin, F.mul_fin]
      rfl
  · intro k
    unfold compound1
    rw [List.map_take, List.map_drop]
    exact (List.prod_take_mul_prod_drop _ k).symm

/-- Witness for C8 at the positive three-bar series [100, 110, 99] with the
split point k = 1. -/
theorem C8_total_return_compounding_witness :
    (calculate_performance_metrics [100, 110, 99]).total_return_pct
        = F.fin ((compound1 (returnsSpec [100, 110, 99]) - 1) * 100) ∧
    compound1 (returnsSpec [100, 110, 99])
        = compound1 ((returnsSpec [100, 110, 99]).take 1)
            * compound1 ((returnsSpec [100, 110, 99]).drop 1) := by
  have h := C8_total_return_compounding [100, 110, 99]
    (by intro x hx; fin_cases hx <;> norm_num)
  exact ⟨h.1, h.2 1⟩

theorem returnsSpec_replicate (c : ℚ) (hc : c ≠ 0) :
    ∀ n, returnsSpec (List.replicate (n + 1) c) = List.replicate n 0 := by
  intro n
  induction n with
  | zero => rfl
  | succ k ih =>
    have h1 : List.replicate (k + 2) c = c :: c :: List.replicate k c := rfl
    have h2 : List.replicate (k + 1) c = c :: List.replicate k c := rfl
    rw [h1, returnsSpec_cons, ← h2, ih, div_self hc, sub_self]
    rfl

theorem runProd_replicate_one : ∀ n, runProd 1 (List.replicate n (1 : ℚ)) = List.replicate n 1 := by
  intro n
  induction n with
  | zero => rfl
  | succ k ih =>
    show (1 * 1 : ℚ) :: runProd (1 * 1) (List.replicate k 1) = List.replicate (k + 1) 1
    rw [one_mul, ih]
    rfl

theorem runMax_replicate_one : ∀ n, runMax 1 (List.replicate n (1 : ℚ)) = List.replicate n 1 := by
  intro n
  induction n with
  | zero => rfl
  | succ k ih =>
    show Max.max (1 : ℚ) 1 :: runMax (Max.max (1 : ℚ) 1) (List.replicate k 1)
        = List.replicate (k + 1) 1
    rw [max_self, ih]
    rfl

theorem qmean_zero (m : ℕ) : qmean (0 :: List.replicate m (0 : ℚ)) = 0 := by
  simp [qmean, List.sum_replicate]

theorem qvar_zero (k : ℕ) : qvar (0 :: List.replicate (k + 1) (0 : ℚ)) = F.fin 0 := by
  unfold qvar
  rw [if_neg (by simp)]
  rw [show (0 :: List.replicate (k + 1) (0 : ℚ)) = List.replicate (k + 2) (0 : ℚ) from rfl]
  simp [qmean, List.sum_replicate, List.map_replicate]

theorem sharpe_replicate (n : ℕ) (c : ℚ) (hn : 2 ≤ n) (hc : 0 < c) :
    (calculate_performance_metrics (List.replicate n c)).sharpe = RVal.nan := by
  obtain ⟨m, rfl⟩ : ∃ m, n = m + 2 := ⟨n - 2, by omega⟩
  have hm : ∀ x ∈ c :: List.replicate (m + 1) c, x ≠ 0 := by
    intro x hx
    rcases List.mem_cons.mp hx with rfl | hx2
    · exact hc.ne'
    · rw [List.eq_of_mem_replicate hx2]; exact hc.ne'
  have hrepl : List.replicate (m + 2) c = c :: List.replicate (m + 1) c := rfl
  show sharpeOf (meanSkip ((daily_returns (List.replicate (m + 2) c))))
      (varSkip ((daily_returns (List.replicate (m + 2) c)))) = RVal.nan
  rw [hrepl, daily_returns_cons c _ hm, ← hrepl,
    returnsSpec_replicate c hc.ne' (m + 1),
    show List.replicate (m + 1) (0 : ℚ) = 0 :: List.replicate m 0 from rfl,
    meanSkip_shape, varSkip_shape, qmean_zero]
  cases m with
  | zero => rfl
  | succ k =>
    rw [qvar_zero k]
    simp [sharpeOf]

theorem perf_flat (m : ℕ) (c : ℚ) (hc : 0 < c) :
    calculate_performance_metrics (List.replicate (m + 3) c) =
      { total_return_pct := F.fin 0, volatility_pct := RVal.sq 1 0,
        sharpe := RVal.nan, max_drawdown_pct := F.fin 0 } := by
  have hm : ∀ x ∈ c :: List.replicate (m + 2) c, x ≠ 0 := by
    intro x hx
    rcases List.mem_cons.mp hx with rfl | hx2
    · exact hc.ne'
    · rw [List.eq_of_mem_replicate hx2]; exact hc.ne'
  have hrepl : List.replicate (m + 3) c = c :: List.replicate (m + 2) c := rfl
  have hdr : daily_returns (List.replicate (m + 3) c)
      = F.nan :: (List.replicate (m + 2) (0 : ℚ)).map F.fin := by
    rw [hrepl, daily_returns_cons c _ hm, ← hrepl, returnsSpec_replicate c hc.ne' (m + 2)]
  have honeplus : (daily_returns (List.replicate (m + 3) c)).map (F.add (F.fin 1))
      = F.nan :: (List.replicate (m + 2) (1 : ℚ)).map F.fin := by
    rw [hdr, map_add_one_nan_cons, List.map_replicate]
    norm_num
  have hvar : varSkip (daily_returns (List.replicate (m + 3) c)) = F.fin 0 := by
    rw [hdr, show List.replicate (m + 2) (0 : ℚ) = 0 :: List.replicate (m + 1) 0 from rfl,
      varSkip_shape, qvar_zero]
  have hmean : meanSkip (daily_returns (List.replicate (m + 3) c)) = F.fin 0 := by
    rw [hdr, show List.replicate (m + 2) (0 : ℚ) = 0 :: List.replicate (m + 1) 0 from rfl,
      meanSkip_shape, qmean_zero]
  have hcum : cumulative_returns (List.replicate (m + 3) c)
      = F.nan :: (List.replicate (m + 2) (1 : ℚ)).map F.fin := by
    unfold cumulative_returns
    rw [honeplus, cumprodSkip_shape, runProd_replicate_one]
  have hpeak : peak (List.replicate (m + 3) c)
      = F.nan :: (List.replicate (m + 2) (1 : ℚ)).map F.fin := by
    unfold peak
    rw [hcum, show List.replicate (m + 2) (1 : ℚ) = 1 :: List.replicate (m + 1) 1 from rfl,
      cummaxSkip_shape, runMax_replicate_one]
    rfl
  have hdd : drawdown (List.replicate (m + 3) c)
      = F.nan :: ((List.replicate (m + 2) (1 : ℚ)).map (fun _ => (0 : ℚ))).map F.fin := by
    unfold drawdown
    rw [hcum, hpeak]
    show F.div (F.sub F.nan F.nan) F.nan ::
        List.zipWith (fun cl p => F.div (F.sub cl p) p)
          ((List.replicate (m + 2) (1 : ℚ)).map F.fin)
          ((List.replicate (m + 2) (1 : ℚ)).map F.fin) = _
    rw [zip_drawdown_fin _ _ (fun p hp => by rw [List.eq_of_mem_replicate hp]; norm_num),
      zip_dd_self]
    rfl
  have hmdd : max_drawdown (List.replicate (m + 3) c) = F.fin 0 := by
    unfold max_drawdown
    rw [hdd]
    rw [show (List.replicate (m + 2) (1 : ℚ)).map (fun _ => (0 : ℚ))
        = 0 :: (List.replicate (m + 1) (1 : ℚ)).map (fun _ => (0 : ℚ)) from rfl]
    rw [minSkip_shape]
    rw [foldl_min_all_zero _ (fun x hx => by
      rcases List.mem_map.mp hx with ⟨y, _, hy⟩
      exact hy.symm)]
  unfold calculate_performance_metrics
  rw [PerfResult.mk.injEq]
  refine ⟨?_, ?_, ?_, ?_⟩
  · unfold cumulative_return
    rw [honeplus, prodSkip_nan_cons, prodSkip_map_fin, List.prod_replicate, one_pow,
      F.sub_fin, F.mul_fin]
    norm_num
  · rw [hvar]
    show (RVal.sq 1 (252 * 0)).mul100 = RVal.sq 1 0
    norm_num [RVal.mul100]
  · rw [hmean, hvar]
    simp [sharpeOf]
  · rw [hmdd, F.mul_fin]
    norm_num

/-- C4: for at least two bars the reported Sharpe number is exactly the model
of mean(r) / std(r) * sqrt(252) built from the spec-side mean and sample
variance of the daily returns (zero risk-free rate); for a constant price
series it is the undefined value NaN (0/0); and the flat 60-bar series at
price 100 yields total return 0 percent, volatility 0 percent, Sharpe
undefined and max drawdown 0 percent. -/
theorem C4_sharpe_and_flat_series (closes : List ℚ) (hpos : ∀ x ∈ closes, 0 < x)
    (hlen : 2 ≤ closes.length) :
    (calculate_performance_metrics closes).sharpe
        = sharpeOf (F.fin (qmean (returnsSpec closes))) (qvar (returnsSpec closes)) ∧
    ((∃ c : ℚ, closes = List.replicate closes.length c) →
        (calculate_performance_metrics closes).sharpe = RVal.nan) ∧
    calculate_performance_metrics (List.replicate 60 (100 : ℚ)) =
      { total_return_pct := F.fin 0, volatility_pct := RVal.sq 1 0,
        sharpe := RVal.nan, max_drawdown_pct := F.fin 0 } := by
  refine ⟨?_, ?_, ?_⟩
  · match closes, hlen with
    | c :: x :: cr, _ =>
      show sharpeOf (meanSkip (daily_returns (c :: x :: cr)))
          (varSkip (daily_returns (c :: x :: cr))) = _
      rw [daily_returns_cons _ _ (fun z hz => (hpos z hz).ne'), returnsSpec_cons,
        meanSkip_shape, varSkip_shape]
  · rintro ⟨c, hc⟩
    have hcpos : 0 < c := by
      apply hpos c
      rw [hc]
      exact List.mem_replicate.mpr ⟨by omega, rfl⟩
    rw [hc]
    exact sharpe_replicate closes.length c (by omega) hcpos
  · have h60 : (60 : ℕ) = 57 + 3 := rfl
    rw [h60]
    exact perf_flat 57 100 (by norm_num)

/-- Witness for C4 at the flat 60-bar series of constant price 100. -/
theorem C4_sharpe_and_flat_series_witness :
    calculate_performance_metrics (List.replicate 60 (100 : ℚ)) =
      { total_return_pct := F.fin 0, volatility_pct := RVal.sq 1 0,
        sharpe := RVal.nan, max_drawdown_pct := F.fin 0 } ∧
    (calculate_performance_metrics (List.replicate 60 (100 : ℚ))).sharpe = RVal.nan := by
  have h := C4_sharpe_and_flat_series (List.replicate 60 (100 : ℚ))
    (fun x hx => by rw [List.eq_of_mem_replicate hx]; norm_num) (by simp)
  exact ⟨h.2.2, h.2.1 ⟨100, by simp⟩⟩

theorem runMax_pos : ∀ (l : List ℚ) (m : ℚ), 0 < m → (∀ x ∈ l, 0 < x) →
    ∀ y ∈ runMax m l, 0 < y := by
  intro l
  induction l with
  | nil => intro m _ _ y hy; simp [runMax] at hy
  | cons x r ih =>
    intro m hm hl y hy
    have hmx : 0 < Max.max m x := lt_max_of_lt_left hm
    rcases (by simpa [runMax] using hy : y = Max.max m x ∨ y ∈ runMax (Max.max m x) r) with h | h
    · exact h ▸ hmx
    · exact ih (Max.max m x) hmx (fun z hz => hl z (by simp [hz])) y h

/-- Core of the maximum-drawdown analysis: for the one-plus-returns list
q0 :: qt with positive entries, the drawdown minimum is a defined nonpositive
value, and it is exactly 0 when every one-plus-return is at least 1. -/
theorem maxdd_core (q0 : ℚ) (qt : List ℚ) (hq0 : 0 < q0) (hqt : ∀ x ∈ qt, 0 < x) :
    (∃ d : ℚ, minSkip (List.zipWith (fun cl p => F.div (F.sub cl p) p)
          (cumprodSkip (F.nan :: (q0 :: qt).map F.fin))
          (cummaxSkip (cumprodSkip (F.nan :: (q0 :: qt).map F.fin)))) = F.fin d ∧ d ≤ 0) ∧
    (1 ≤ q0 → (∀ x ∈ qt, 1 ≤ x) →
        minSkip (List.zipWith (fun cl p => F.div (F.sub cl p) p)
          (cumprodSkip (F.nan :: (q0 :: qt).map F.fin))
          (cummaxSkip (cumprodSkip (F.nan :: (q0 :: qt).map F.fin)))) = F.fin 0) := by
  have hrun : runProd 1 (q0 :: qt) = q0 :: runProd q0 qt := by
    show (1 * q0) :: runProd (1 * q0) qt = q0 :: runProd q0 qt
    rw [one_mul]
  have hCt : ∀ y ∈ runProd q0 qt, 0 < y := runProd_pos qt q0 hq0 hqt
  have hcum : cumprodSkip (F.nan :: (q0 :: qt).map F.fin)
      = F.nan :: (q0 :: runProd q0 qt).map F.fin := by
    rw [cumprodSkip_shape, hrun]
  have hpk : cummaxSkip (cumprodSkip (F.nan :: (q0 :: qt).map F.fin))
      = F.nan :: (q0 :: runMax q0 (runProd q0 qt)).map F.fin := by
    rw [hcum, cummaxSkip_shape]
    rfl
  have hPs : ∀ p ∈ q0 :: runMax q0 (runProd q0 qt), p ≠ 0 := by
    intro p hp
    rcases List.mem_cons.mp hp with rfl | hp2
    · exact hq0.ne'
    · exact (runMax_pos (runProd q0 qt) q0 hq0 hCt p hp2).ne'
  have hmaxself : q0 :: runMax q0 (runProd q0 qt) = runMax q0 (q0 :: runProd q0 qt) := by
    show _ = Max.max q0 q0 :: runMax (Max.max q0 q0) (runProd q0 qt)
    rw [max_self]
  have hzip : List.zipWith (fun cl p => F.div (F.sub cl p) p)
        (cumprodSkip (F.nan :: (q0 :: qt).map F.fin))
        (cummaxSkip (cumprodSkip (F.nan :: (q0 :: qt).map F.fin)))
      = F.nan :: (List.zipWith (fun cl p => (cl - p) / p)
          (q0 :: runProd q0 qt) (q0 :: runMax q0 (runProd q0 qt))).map F.fin := by
    rw [hpk, hcum]
    show F.div (F.sub F.nan F.nan) F.nan ::
        List.zipWith (fun cl p => F.div (F.sub cl p) p)
          ((q0 :: runProd q0 qt).map F.fin)
          ((q0 :: runMax q0 (runProd q0 qt)).map F.fin) = _
    rw [zip_drawdown_fin _ _ hPs]
    rfl
  have hd0 : (q0 - q0) / q0 = 0 := by rw [sub_self, zero_div]
  have hddcons : List.zipWith (fun cl p => (cl - p) / p)
        (q0 :: runProd q0 qt) (q0 :: runMax q0 (runProd q0 qt))
      = ((q0 - q0) / q0) :: List.zipWith (fun cl p => (cl - p) / p)
          (runProd q0 qt) (runMax q0 (runProd q0 qt)) := rfl
  have hnonpos : ∀ d ∈ List.zipWith (fun cl p => (cl - p) / p)
      (q0 :: runProd q0 qt) (runMax q0 (q0 :: runProd q0 qt)), d ≤ 0 :=
    dd_nonpos (q0 :: runProd q0 qt) q0 hq0
      (fun z hz => by
        rcases List.mem_cons.mp hz with rfl | hz2
        · exact hq0
        · exact hCt z hz2)
  rw [← hmaxself] at hnonpos
  constructor
  · refine ⟨(List.zipWith (fun cl p => (cl - p) / p)
        (runProd q0 qt) (runMax q0 (runProd q0 qt))).foldl Min.min ((q0 - q0) / q0), ?_, ?_⟩
    · rw [hzip, hddcons, minSkip_shape]
    · apply foldl_min_nonpos
      · rw [hd0]
      · intro x hx
        apply hnonpos
        rw [hddcons]
        exact List.mem_cons_of_mem _ hx
  · intro h1 hge
    have hchain : List.Chain (· ≤ ·) 1 (runProd 1 (q0 :: qt)) :=
      runProd_chain (q0 :: qt) 1 one_pos (fun z hz => by
        rcases List.mem_cons.mp hz with rfl | hz2
        · exact h1
        · exact hge z hz2)
    rw [hrun] at hchain
    rcases List.chain_cons.mp hchain with ⟨_, hchain2⟩
    have hself : runMax q0 (runProd q0 qt) = runProd q0 qt := runMax_eq_self _ _ hchain2
    rw [hzip, hddcons, hself, minSkip_shape, hd0]
    rw [zip_dd_self]
    rw [foldl_min_all_zero _ (fun x hx => by
      rcases List.mem_map.mp hx with ⟨y, _, hy⟩
      exact hy.symm)]

/-- C9: for a positive price series with at least two bars, the reported
maximum drawdown (the minimum over bars of (C - running max C) / running
max C, C the cumulative product of one-plus-returns) is a defined value and
is at most 0; for a monotonically non-decreasing close series it is exactly
0. -/
theorem C9_max_drawdown_nonpos (closes : List ℚ) (hpos : ∀ x ∈ closes, 0 < x)
    (hlen : 2 ≤ closes.length) :
    (∃ d : ℚ, (calculate_performance_metrics closes).max_drawdown_pct = F.fin d ∧ d ≤ 0) ∧
    (List.Chain' (· ≤ ·) closes →
      (calculate_performance_metrics closes).max_drawdown_pct = F.fin 0) := by
  match closes, hpos, hlen with
  | c :: x :: cr, hpos, _ =>
    have hq : ∀ q ∈ (returnsSpec (c :: x :: cr)).map (fun r => 1 + r), 0 < q :=
      returnsSpec_one_plus_pos (x :: cr) c (hpos c (by simp))
        (fun z hz => hpos z (by simp [hz]))
    have hqs : (returnsSpec (c :: x :: cr)).map (fun r => 1 + r)
        = (1 + (x / c - 1)) :: (returnsSpec (x :: cr)).map (fun r => 1 + r) := by
      rw [returnsSpec_cons]
      rfl
    have hq0 : 0 < 1 + (x / c - 1) := hq _ (by rw [hqs]; simp)
    have hqt : ∀ z ∈ (returnsSpec (x :: cr)).map (fun r => 1 + r), 0 < z :=
      fun z hz => hq z (by rw [hqs]; simp [hz])
    have hshape : (daily_returns (c :: x :: cr)).map (F.add (F.fin 1))
        = F.nan :: ((1 + (x / c - 1)) :: (returnsSpec (x :: cr)).map (fun r => 1 + r)).map
            F.fin := by
      rw [daily_returns_cons _ _ (fun z hz => (hpos z hz).ne'), map_add_one_nan_cons, hqs]
    constructor
    · obtain ⟨d, hd, hdle⟩ := (maxdd_core _ _ hq0 hqt).1
      refine ⟨d * 100, ?_, mul_nonpos_of_nonpos_of_nonneg hdle (by norm_num)⟩
      show F.mul (max_drawdown (c :: x :: cr)) (F.fin 100) = F.fin (d * 100)
      unfold max_drawdown drawdown peak cumulative_returns
      rw [hshape, hd, F.mul_fin]
    · intro hchain
      have hge : ∀ q ∈ (returnsSpec (c :: x :: cr)).map (fun r => 1 + r), 1 ≤ q :=
        returnsSpec_one_plus_ge_one (x :: cr) c (hpos c (by simp))
          (fun z hz => hpos z (by simp [hz])) hchain
      have h0 := (maxdd_core _ _ hq0 hqt).2
        (hge _ (by rw [hqs]; simp))
        (fun z hz => hge z (by rw [hqs]; simp [hz]))
      show F.mul (max_drawdown (c :: x :: cr)) (F.fin 100) = F.fin 0
      unfold max_drawdown drawdown peak cumulative_returns
      rw [hshape, h0, F.mul_fin]
      norm_num

/-- Witness for C9 at the positive series [100, 110, 99] (drawdown defined
and nonpositive) and at the non-decreasing series [100, 100, 110] (drawdown
exactly 0). -/
theorem C9_max_drawdown_nonpos_witness :
    (∃ d : ℚ, (calculate_performance_metrics [100, 110, 99]).max_drawdown_pct = F.fin d
        ∧ d ≤ 0) ∧
    (calculate_performance_metrics [100, 100, 110]).max_drawdown_pct = F.fin 0 := by
  constructor
  · exact (C9_max_drawdown_nonpos [100, 110, 99]
      (by intro x hx; fin_cases hx <;> norm_num) (by norm_num)).1
  · exact (C9_max_drawdown_nonpos [100, 100, 110]
      (by intro x hx; fin_cases hx <;> norm_num) (by norm_num)).2
      (by norm_num [List.chain'_cons])

theorem emaSpec_nonneg (a : ℚ) (h0 : 0 ≤ a) (h1 : a ≤ 1) (e : ℚ) (he : 0 ≤ e)
    (l : List ℚ) (hl : ∀ z ∈ l, 0 ≤ z) : ∀ y ∈ emaSpec a e l, 0 ≤ y := by
  intro y hy
  unfold emaSpec at hy
  rcases List.mem_cons.mp hy with rfl | hy2
  · exact he
  · exact emaTail_nonneg a h0 h1 l e he hl y hy2

theorem upS_shape (c x : ℚ) (cr : List ℚ) :
    upS (c :: x :: cr) = F.nan ::
      ((Max.max (x - c) 0) :: (List.zipWith (fun prev cur => cur - prev) (x :: cr) cr).map
        (fun d => Max.max d 0)).map F.fin := by
  unfold upS
  rw [delta_cons]
  show (F.nan :: ((x - c) :: List.zipWith (fun prev cur => cur - prev) (x :: cr) cr).map
      F.fin).map F.clipLower0 = _
  simp [List.map_map, Function.comp_def]

theorem downS_shape (c x : ℚ) (cr : List ℚ) :
    downS (c :: x :: cr) = F.nan ::
      (((-1) * Min.min (x - c) 0) ::
        (List.zipWith (fun prev cur => cur - prev) (x :: cr) cr).map
          (fun d => (-1) * Min.min d 0)).map F.fin := by
  unfold downS
  rw [delta_cons]
  show (F.nan :: ((x - c) :: List.zipWith (fun prev cur => cur - prev) (x :: cr) cr).map
      F.fin).map (fun y => F.mul (F.fin (-1)) (F.clipUpper0 y)) = _
  simp [List.map_map, Function.comp_def]

theorem ema_up_shape (c x : ℚ) (cr : List ℚ) :
    ema_up (c :: x :: cr) = F.nan ::
      (emaSpec (1/14) (Max.max (x - c) 0)
        ((List.zipWith (fun prev cur => cur - prev) (x :: cr) cr).map
          (fun d => Max.max d 0))).map F.fin := by
  unfold ema_up
  rw [upS_shape]
  exact ewmMean_nan_cons_fin _ _ _

theorem ema_down_shape (c x : ℚ) (cr : List ℚ) :
    ema_down (c :: x :: cr) = F.nan ::
      (emaSpec (1/14) ((-1) * Min.min (x - c) 0)
        ((List.zipWith (fun prev cur => cur - prev) (x :: cr) cr).map
          (fun d => (-1) * Min.min d 0))).map F.fin := by
  unfold ema_down
  rw [downS_shape]
  exact ewmMean_nan_cons_fin _ _ _

theorem rs_mapped_last (a u0 l0 : ℚ) (ur lr : List ℚ) (h0 : 0 ≤ a) (h1 : a ≤ 1)
    (hu0 : 0 ≤ u0) (hl0 : 0 ≤ l0)
    (hur : ∀ z ∈ ur, 0 ≤ z) (hlr : ∀ z ∈ lr, 0 ≤ z) (hlen : ur.length = lr.length) :
    ∃ g l : ℚ, 0 ≤ g ∧ 0 ≤ l ∧
      lastF ((List.zipWith F.div (F.nan :: (emaSpec a u0 ur).map F.fin)
          (F.nan :: (emaSpec a l0 lr).map F.fin)).map
        (fun y => F.div (F.fin 100) (F.add (F.fin 1) y)))
        = F.div (F.fin 100) (F.add (F.fin 1) (F.div (F.fin g) (F.fin l))) := by
  have hzip : List.zipWith F.div ((emaSpec a u0 ur).map F.fin)
      ((emaSpec a l0 lr).map F.fin)
      = List.zipWith (fun g l => F.div (F.fin g) (F.fin l))
          (emaSpec a u0 ur) (emaSpec a l0 lr) := by
    rw [List.zipWith_map_left, List.zipWith_map_right]
  have hZlen : (emaSpec a u0 ur).length = (emaSpec a l0 lr).length := by
    rw [emaSpec_length, emaSpec_length, hlen]
  have hZne : List.zipWith (fun g l => F.div (F.fin g) (F.fin l))
      (emaSpec a u0 ur) (emaSpec a l0 lr) ≠ [] := by
    have hlp : 0 < (List.zipWith (fun g l => F.div (F.fin g) (F.fin l))
        (emaSpec a u0 ur) (emaSpec a l0 lr)).length := by
      rw [List.length_zipWith, emaSpec_length, emaSpec_length]
      omega
    exact List.length_pos.mp hlp
  refine ⟨(emaSpec a u0 ur).getLastD 0, (emaSpec a l0 lr).getLastD 0, ?_, ?_, ?_⟩
  · exact emaSpec_nonneg a h0 h1 u0 hu0 ur hur _
      (getLastD_mem _ 0 (by simp [emaSpec]))
  · exact emaSpec_nonneg a h0 h1 l0 hl0 lr hlr _
      (getLastD_mem _ 0 (by simp [emaSpec]))
  · have hstep1 : List.zipWith F.div (F.nan :: (emaSpec a u0 ur).map F.fin)
        (F.nan :: (emaSpec a l0 lr).map F.fin)
        = F.nan :: List.zipWith (fun g l => F.div (F.fin g) (F.fin l))
            (emaSpec a u0 ur) (emaSpec a l0 lr) := by
      show F.div F.nan F.nan :: List.zipWith F.div ((emaSpec a u0 ur).map F.fin)
          ((emaSpec a l0 lr).map F.fin) = _
      rw [hzip]
      rfl
    unfold lastF
    rw [hstep1, List.map_cons, List.getLastD_cons]
    rw [getLastD_map (fun y => F.div (F.fin 100) (F.add (F.fin 1) y)) _ _ F.nan hZne]
    have hinner : (List.zipWith (fun g l => F.div (F.fin g) (F.fin l))
        (emaSpec a u0 ur) (emaSpec a l0 lr)).getLastD F.nan
        = F.div (F.fin ((emaSpec a u0 ur).getLastD 0))
            (F.fin ((emaSpec a l0 lr).getLastD 0)) := by
      rw [getLastD_congr _ F.nan (F.div (F.fin 0) (F.fin 0)) hZne]
      exact getLastD_zipWith (fun g l => F.div (F.fin g) (F.fin l)) _ _ 0 0 hZlen
    rw [hinner]

theorem rsi_single_nan (c : ℚ) (r : IndicatorResult)
    (h : calculate_technical_indicators [c] = some r) : r.rsi = F.nan := by
  unfold calculate_technical_indicators at h
  rw [if_neg (by simp)] at h
  have h2 := Option.some.inj h
  subst h2
  show F.sub (F.fin 100)
      (lastF ((rsS [c]).map (fun y => F.div (F.fin 100) (F.add (F.fin 1) y)))) = F.nan
  norm_num [rsS, ema_up, ema_down, upS, downS, delta, diffS, close_prices, ewmMean, ewmGo,
    lastF, F.isNan, F.sub, F.add, F.neg, F.div, F.clipLower0, F.clipUpper0]

theorem rsi_last_shape (c x : ℚ) (cr : List ℚ) (r : IndicatorResult)
    (h : calculate_technical_indicators (c :: x :: cr) = some r) :
    ∃ g l : ℚ, 0 ≤ g ∧ 0 ≤ l ∧
      r.rsi = F.sub (F.fin 100)
        (F.div (F.fin 100) (F.add (F.fin 1) (F.div (F.fin g) (F.fin l)))) := by
  unfold calculate_technical_indicators at h
  rw [if_neg (by simp)] at h
  have h2 := Option.some.inj h
  subst h2
  have hrs : rsS (c :: x :: cr)
      = List.zipWith F.div
          (F.nan :: (emaSpec (1/14) (Max.max (x - c) 0)
            ((List.zipWith (fun prev cur => cur - prev) (x :: cr) cr).map
              (fun d => Max.max d 0))).map F.fin)
          (F.nan :: (emaSpec (1/14) ((-1) * Min.min (x - c) 0)
            ((List.zipWith (fun prev cur => cur - prev) (x :: cr) cr).map
              (fun d => (-1) * Min.min d 0))).map F.fin) := by
    unfold rsS
    rw [ema_up_shape, ema_down_shape]
  obtain ⟨g, l, hg, hl, heq⟩ := rs_mapped_last (1/14) (Max.max (x - c) 0)
    ((-1) * Min.min (x - c) 0)
    ((List.zipWith (fun prev cur => cur - prev) (x :: cr) cr).map (fun d => Max.max d 0))
    ((List.zipWith (fun prev cur => cur - prev) (x :: cr) cr).map
      (fun d => (-1) * Min.min d 0))
    (by norm_num) (by norm_num) (le_max_right _ _)
    (by rw [neg_one_mul]; exact neg_nonneg.mpr (min_le_right _ _))
    (fun z hz => by
      rcases List.mem_map.mp hz with ⟨d, _, hd⟩
      rw [← hd]; exact le_max_right _ _)
    (fun z hz => by
      rcases List.mem_map.mp hz with ⟨d, _, hd⟩
      rw [← hd, neg_one_mul]; exact neg_nonneg.mpr (min_le_right _ _))
    (by rw [List.length_map, List.length_map])
  refine ⟨g, l, hg, hl, ?_⟩
  show F.sub (F.fin 100)
      (lastF ((rsS (c :: x :: cr)).map (fun y => F.div (F.fin 100) (F.add (F.fin 1) y))))
      = _
  rw [hrs, heq]

/-- C7: whenever the reported RSI is a defined (finite) number it lies in
[0, 100]; the RSI is 100 - 100/(1 + RS) where RS is the ratio of the
exponentially smoothed gains to the exponentially smoothed losses with
smoothing factor 1/14. -/
theorem C7_rsi_in_range (closes : List ℚ) (r : IndicatorResult) (q : ℚ)
    (h : calculate_technical_indicators closes = some r) (hq : r.rsi = F.fin q) :
    0 ≤ q ∧ q ≤ 100 := by
  match closes with
  | [] => exact absurd h (by simp [calculate_technical_indicators])
  | [c] =>
    rw [rsi_single_nan c r h] at hq
    exact absurd hq (by simp)
  | c :: x :: cr =>
    obtain ⟨g, l, hg, hl, heq⟩ := rsi_last_shape c x cr r h
    rw [heq] at hq
    rcases lt_or_eq_of_le hl with hl2 | hl2
    · rw [F.div_fin_of_ne g l hl2.ne'] at hq
      have hgl : 0 ≤ g / l := div_nonneg hg hl2.le
      have h1gl : (1 + g / l) ≠ 0 := by positivity
      rw [F.add_fin, F.div_fin_of_ne _ _ h1gl, F.sub_fin] at hq
      have hq2 := F.fin.inj hq
      have hdivpos : 0 < 100 / (1 + g / l) := by positivity
      have hdivle : 100 / (1 + g / l) ≤ 100 := div_le_self (by norm_num) (by linarith)
      constructor <;> linarith
    · rw [← hl2] at hq
      rcases lt_or_eq_of_le hg with hg2 | hg2
      · rw [F.div_fin_zero_pos g hg2, F.add_fin_pinf, F.div_fin_pinf, F.sub_fin] at hq
        have hq2 := F.fin.inj hq
        constructor <;> linarith
      · rw [← hg2, F.div_zero_zero, F.add_nan_right, F.div_nan_right, F.sub_nan_right] at hq
        exact absurd hq (by simp)

/-- Witness for C7 at the series [1, 2, 1], where the RSI is the defined
value 650/7, which lies in [0, 100]. -/
theorem C7_rsi_in_range_witness :
    (calculate_technical_indicators [1, 2, 1]).map IndicatorResult.rsi
        = some (F.fin (650/7)) ∧
    0 ≤ (650/7 : ℚ) ∧ (650/7 : ℚ) ≤ 100 := by
  have heval : (calculate_technical_indicators [1, 2, 1]).map IndicatorResult.rsi
      = some (F.fin (650/7)) := by
    norm_num [calculate_technical_indicators, rsS, ema_up, ema_down, upS, downS, delta, diffS,
      close_prices, ewmMean, ewmGo, lastF, F.isNan, F.sub, F.add, F.neg, F.mul, F.div,
      F.clipLower0, F.clipUpper0, max_def, min_def]
  refine ⟨heval, ?_⟩
  cases hE : calculate_technical_indicators [1, 2, 1] with
  | none => rw [hE] at heval; exact absurd heval (by simp)
  | some r =>
    have hq : r.rsi = F.fin (650/7) := by
      rw [hE] at heval
      simpa using heval
    exact C7_rsi_in_range [1, 2, 1] r (650/7) hE hq
